import Mathlib

/-!
Verification development for the PDFProcessor record-extraction engine
(src/PDFProcessor.py).  The line-oriented record accumulation, field-schema
derivation, completion test, whitespace normalization, the main `process_pdf`
loop, and the previewer's page-range arithmetic are embedded as executable
Lean definitions, translated directly from the source.  Regular expressions
are modelled abstractly as search functions returning the list of captured
groups (Python's `match.groups()`), with concrete executable instances for the
specific patterns used by the examples.
-/

/-- Whitespace characters recognised by Python's regex class backslash-s and
by `str.strip`, restricted to ASCII (the inputs considered are ASCII). -/
def isPySpace (c : Char) : Bool :=
  c = ' ' || c = '\t' || c = '\n' || c = '\r' || c = '\x0b' || c = '\x0c'

/-- One pass of `re.sub
(backslash-s+, single space, s)`: every maximal run of whitespace characters
is replaced by one ASCII space.  The boolean records whether we are currently
inside a whitespace run. -/
def collapseWS : Bool → List Char → List Char
  | _, [] => []
  | inRun, c :: cs =>
    if isPySpace c then
      if inRun then collapseWS true cs else ' ' :: collapseWS true cs
    else c :: collapseWS false cs

/-- Python `str.strip()`: drop whitespace from both ends. -/
def pyStrip (l : List Char) : List Char :=
  ((l.dropWhile isPySpace).reverse.dropWhile isPySpace).reverse

/-- The normalization applied to one field value inside `parse_record`:
collapse whitespace runs to a single space, then strip the ends. -/
def normalizeWS (s : String) : String :=
  String.mk (pyStrip (collapseWS false s.data))

/-- A record: the namedtuple `Line`, represented as an association list from
field name to optional captured string, in schema order. -/
abbrev Record := List (String × Option String)

/-- The empty record: every field of the schema set to `none`
(`self.empty_record` in the source). -/
def emptyRecord (fields : List String) : Record :=
  fields.map (fun f => (f, (none : Option String)))

/-- Namedtuple `_replace` for a single field: every entry whose key equals
`f` gets value `v`; other entries are untouched. -/
def setField (r : Record) (f : String) (v : Option String) : Record :=
  r.map (fun p => if p.1 = f then (p.1, v) else p)

/-- Read a field of the record (`getattr(record, field)`); `none` when the
field is absent. -/
def getField : Record → String → Option String
  | [], _ => none
  | p :: rest, f => if p.1 = f then p.2 else getField rest f

/-- Python truthiness of an optional string: `None` and the empty string are
falsy, every other string is truthy. -/
def truthy : Option String → Bool
  | none => false
  | some s => s != ""

/-- Source `is_record_complete`: `all(getattr(record, field) for field in
self.required_fields)` — a truthiness test on every required field. -/
def is_record_complete (required_fields : List String) (record : Record) : Bool :=
  required_fields.all (fun f => truthy (getField record f))

/-- Source `parse_record`: for each field, a truthy value is whitespace
normalized, a falsy value (`None` or the empty string) becomes `None`. -/
def normField : Option String → Option String
  | none => none
  | some s => if s = "" then none else some (normalizeWS s)

/-- Source `parse_record` applied to a whole record. -/
def parse_record (record : Record) : Record :=
  record.map (fun p => (p.1, normField p.2))

/-- Suffixed field names `name_1 .. name_n` generated for a multi-group
pattern. -/
def suffixedNames (name : String) (n : Nat) : List String :=
  (List.range n).map (fun i => name ++ "_" ++ toString (i + 1))

/-- Field-name derivation loop of `initialize_regex_mode` (lines 42-49):
one field for a single-group pattern, suffixed fields otherwise (a
zero-group pattern silently contributes an empty list). -/
def derive_field_names (specs : List (String × Nat)) : List String :=
  specs.foldl
    (fun acc p => if p.2 = 1 then acc ++ [p.1] else acc ++ suffixedNames p.1 p.2) []

/-- Failures that can occur inside `initialize_regex_mode`: the namedtuple
constructor raises on duplicate field names, and the `field_names[0]`
default raises IndexError when the derived list is empty. -/
inductive InitError where
  | duplicateField : InitError
  | indexError : InitError
deriving DecidableEq

/-- Source `initialize_regex_mode`, given each pattern's name and compiled
group count: derive the field names, build the namedtuple type (which
rejects duplicate names), and default the required fields to the first
derived field when the argument is `None` or empty (Python falsiness). -/
def initialize_regex_mode (specs : List (String × Nat))
    (required_fields : Option (List String)) :
    Except InitError (List String × List String) :=
  let fns := derive_field_names specs
  if fns.Nodup then
    match required_fields with
    | some (f :: rest) => Except.ok (fns, f :: rest)
    | _ =>
      match fns with
      | [] => Except.error InitError.indexError
      | f :: _ => Except.ok (fns, [f])
  else Except.error InitError.duplicateField

/-- A named pattern: its name, its compiled capture-group count, and its
search behaviour — `re.search` returning `match.groups()` (each group
optionally `None`) or `none` when the line does not match. -/
structure RegexSpec where
  name : String
  groups : Nat
  search : String → Option (List (Option String))

/-- The field assignments `extract_data_from_line` performs for one matching
pattern: a single group maps directly to the pattern name, several groups
map to the suffixed names in group order. -/
def assignments (name : String) (gs : List (Option String)) :
    List (String × Option String) :=
  if gs.length = 1 then [(name, gs.getD 0 none)]
  else (suffixedNames name gs.length).zip gs

/-- Apply a list of single-field `_replace` updates in order. -/
def setFields (r : Record) (kvs : List (String × Option String)) : Record :=
  kvs.foldl (fun r kv => setField r kv.1 kv.2) r

/-- One iteration of the pattern loop in `extract_data_from_line`: if the
pattern matches the line, write its captured groups into the record,
otherwise leave the record untouched. -/
def applyOne (line : String) (r : Record) (s : RegexSpec) : Record :=
  match s.search line with
  | some gs => setFields r (assignments s.name gs)
  | none => r

/-- Source `extract_data_from_line`: check every pattern against the line in
declaration order and update the record accordingly. -/
def extract_data_from_line (specs : List RegexSpec) (line : String) (record : Record) :
    Record :=
  specs.foldl (applyOne line) record

/-- Errors raised by `process_pdf` itself: the RuntimeError (the spec's
InvalidStateError) raised before any file is opened when regex mode is
disabled. -/
inductive ProcErr where
  | invalidState : ProcErr
deriving DecidableEq

/-- CSV serialization of one record row: `None` fields are written as the
empty string by `csv.writer`. -/
def serializeRecord (r : Record) : List String :=
  r.map (fun p => p.2.getD "")

/-- The configuration held by a processor in regex mode: derived field
names, the patterns, and the required fields. -/
structure Config where
  field_names : List String
  specs : List RegexSpec
  required_fields : List String

/-- Body of the per-line step of the main loop in `process_pdf` (lines
92-100): extract data from the line; if the record is now complete,
normalize it, emit it and reset the accumulator. -/
def process_step (cfg : Config) (st : List (List String) × Record) (line : String) :
    List (List String) × Record :=
  let r := extract_data_from_line cfg.specs line st.2
  if is_record_complete cfg.required_fields r then
    (st.1 ++ [serializeRecord (parse_record r)], emptyRecord cfg.field_names)
  else (st.1, r)

/-- Source `process_pdf`.  The returned list models the rows written to the
CSV sink, header first; the error result models the RuntimeError raised
before the source or sink is opened, so nothing is written.  The lines of
all pages are passed as a single list, in document order.  Note that the
final partial flush (lines 103-104) writes the raw record without
`parse_record`. -/
def process_pdf (regex_mode_enabled : Bool) (cfg : Config) (lines : List String) :
    Except ProcErr (List (List String)) :=
  if regex_mode_enabled then
    let res := lines.foldl (process_step cfg) ([cfg.field_names], emptyRecord cfg.field_names)
    if res.2 = emptyRecord cfg.field_names then Except.ok res.1
    else Except.ok (res.1 ++ [serializeRecord res.2])
  else Except.error ProcErr.invalidState

/-- Page indices visited by `preview_regex_try` for a range `(a, b)` over a
document of `numPages` pages: Python `range(a, min(b, len(doc)))`. -/
def preview_pages (a b numPages : Nat) : List Nat :=
  List.range' a (min b numPages - a)

/-- Literal-match helper: if `lit` is an initial segment of `l`, return the
remainder, else `none`. -/
def stripLit : List Char → List Char → Option (List Char)
  | [], l => some l
  | _ :: _, [] => none
  | c :: cs, d :: ds => if c = d then stripLit cs ds else none

/-- Leftmost-match search loop of `re.search`: try the position-matcher at
every start position, leftmost first. -/
def searchLoop (tryPos : List Char → Option String) : List Char → Option String
  | [] => tryPos []
  | c :: t =>
    match tryPos (c :: t) with
    | some s => some s
    | none => searchLoop tryPos t

/-- Position matcher for a pattern `literal(C+)` with `C` a character class:
the literal followed by a maximal nonempty run of class characters, captured
greedily. -/
def matchLitClass (lit : List Char) (ok : Char → Bool) (l : List Char) : Option String :=
  match stripLit lit l with
  | some rest =>
    let cap := rest.takeWhile ok
    if cap.isEmpty then none else some (String.mk cap)
  | none => none

/-- Position matcher for a pattern `literal(.+)`: the literal followed by a
nonempty rest of the line, captured greedily. -/
def matchLitRest (lit : List Char) (l : List Char) : Option String :=
  match stripLit lit l with
  | some rest => if rest.isEmpty then none else some (String.mk rest)
  | none => none

/-- Python word character (ASCII): alphanumeric or underscore. -/
def wordChar (c : Char) : Bool := c.isAlphanum || c = '_'

/-- The pattern `Name: (backslash-w+)` of the end-to-end example. -/
def nameSpec : RegexSpec :=
  ⟨"name", 1, fun line =>
    (searchLoop (matchLitClass "Name: ".data wordChar) line.data).map
      (fun s => [some s])⟩

/-- The pattern `ID: (backslash-d+)` of the end-to-end example. -/
def idSpec : RegexSpec :=
  ⟨"id", 1, fun line =>
    (searchLoop (matchLitClass "ID: ".data Char.isDigit) line.data).map
      (fun s => [some s])⟩

/-- Configuration of the end-to-end example: patterns name, id; required
fields just `id`. -/
def cfg5 : Config := ⟨["name", "id"], [nameSpec, idSpec], ["id"]⟩

/-- The pattern `A: (.+)`. -/
def aRestSpec : RegexSpec :=
  ⟨"a", 1, fun line =>
    (searchLoop (matchLitRest "A: ".data) line.data).map (fun s => [some s])⟩

/-- The pattern `B: (.+)`. -/
def bRestSpec : RegexSpec :=
  ⟨"b", 1, fun line =>
    (searchLoop (matchLitRest "B: ".data) line.data).map (fun s => [some s])⟩

/-- A two-pattern configuration whose required field is `b`, used to
exercise the final partial flush. -/
def cfg2 : Config := ⟨["a", "b"], [aRestSpec, bRestSpec], ["b"]⟩

/-- Follows the spec's words (section 4.1): the fields contributed by one
pattern — one field named exactly the pattern name when it has one capture
group, and `g` fields named `name_1 .. name_g` in capture-group order when
it has `g > 1` groups. -/
def fieldContributionSpec (name : String) (g : Nat) : List String :=
  if g = 1 then [name]
  else (List.range g).map (fun i => name ++ "_" ++ toString (i + 1))

/-- Spec-level description of the data rows the main loop emits: one
normalized, serialized row per record completed mid-run, in line order. -/
def runRows (cfg : Config) : List String → Record → List (List String)
  | [], _ => []
  | l :: ls, r =>
    let r' := extract_data_from_line cfg.specs l r
    if is_record_complete cfg.required_fields r' then
      serializeRecord (parse_record r') :: runRows cfg ls (emptyRecord cfg.field_names)
    else runRows cfg ls r'

/-- Spec-level description of the record left in the accumulator when the
line stream ends: the fields gathered since the last completed record. -/
def runFinal (cfg : Config) : List String → Record → Record
  | [], r => r
  | l :: ls, r =>
    let r' := extract_data_from_line cfg.specs l r
    if is_record_complete cfg.required_fields r' then
      runFinal cfg ls (emptyRecord cfg.field_names)
    else runFinal cfg ls r'

/-- A single-group pattern that matches exactly the line `hit`, capturing
`v`; used to exercise field persistence across non-matching lines. -/
def persistSpec : RegexSpec :=
  ⟨"a", 1, fun line => if line = "hit" then some [some "v"] else none⟩

/-- Invariant relation on adjacent characters of a normalized string: no two
adjacent whitespace characters. -/
def noAdjWS (a b : Char) : Prop := ¬(isPySpace a = true ∧ isPySpace b = true)

/-- A single-group pattern that matches every line, capturing `x`. -/
def wA : RegexSpec := ⟨"wa", 1, fun _ => some [some "x"]⟩

/-- A single-group pattern that matches every line, capturing `y`. -/
def wB : RegexSpec := ⟨"wb", 1, fun _ => some [some "y"]⟩

/-- C1: constructing the schema from a configuration containing a zero-group
pattern does not fail: the zero-group pattern `a` silently contributes no
fields and construction succeeds, contrary to the required
ConfigurationError. -/
theorem c1_zero_group_pattern_not_rejected :
    derive_field_names [("a", 0), ("b", 1)] = ["b"] ∧
    initialize_regex_mode [("a", 0), ("b", 1)] (some ["b"]) =
      Except.ok (["b"], ["b"]) := by
  constructor
  · rfl
  · rfl

/-- C3: a required field holding the empty string does not count as set:
`is_record_complete` applies Python truthiness, so a record whose required
field `id` holds `""` is judged incomplete, contrary to the non-null
semantics stated by the claim and by the function's own docstring. -/
theorem c3_empty_string_required_field_incomplete :
    is_record_complete ["id"] [("name", some "Alice"), ("id", some "")] = false := by
  rfl

/-- C5: end-to-end example — patterns name, id, required fields just id,
four input lines; the run emits the header then exactly the two rows
(Alice, 42) and (Bob, 7), with nothing flushed at end of stream. -/
theorem c5_end_to_end :
    process_pdf true cfg5 ["Name: Alice", "ID: 42", "Name: Bob", "ID: 7"] =
      Except.ok [["name", "id"], ["Alice", "42"], ["Bob", "7"]] := by
  rfl

/-- C9: calling `process_pdf` with regex mode disabled fails with the
invalid-state error (the source's RuntimeError) before any source or sink
I/O, so no header row and no data rows are written. -/
theorem c9_process_without_patterns_fails (cfg : Config) (lines : List String) :
    process_pdf false cfg lines = Except.error ProcErr.invalidState := rfl

/-- C2 counterexample: with patterns `A: (.+)`, `B: (.+)` and required field
`b`, the single line `A: x  y` leaves a partial record; the final flush
writes the raw value `x  y` (double space), not the normalized `x y`, so the
final partial flush does not write `normalize(record)`. -/
theorem c2_counterexample :
    process_pdf true cfg2 ["A: x  y"] =
      Except.ok [["a", "b"], ["x  y", ""]] ∧
    serializeRecord (parse_record [("a", some "x  y"), ("b", none)]) = ["x y", ""] ∧
    (["x  y", ""] : List String) ≠ ["x y", ""] := by
  refine ⟨rfl, rfl, ?_⟩
  decide

/-- C4 counterexample: normalization is not idempotent — a field holding a
single space (truthy) normalizes to the empty string, which a second
application turns into `None`. -/
theorem c4_counterexample :
    parse_record (parse_record [("a", some " ")]) ≠ parse_record [("a", some " ")] := by
  decide

/-- C10: the previewer visits exactly the page indices `i` with
`a ≤ i < min b numPages`; the upper bound is exclusive and clamped to the
document length, so an index at or beyond the page count is never loaded. -/
theorem c10_preview_page_range (a b n i : Nat) :
    i ∈ preview_pages a b n ↔ a ≤ i ∧ i < min b n := by
  simp only [preview_pages, List.mem_range'_1]
  omega

/-- C10 witness: page range (1, 5) on a 3-page document visits index 2. -/
theorem c10_preview_page_range_witness :
    2 ∈ preview_pages 1 5 3 ↔ 1 ≤ 2 ∧ 2 < min 5 3 :=
  c10_preview_page_range 1 5 3 2

theorem foldl_process_step (cfg : Config) (ls : List String) :
    ∀ (rows : List (List String)) (r : Record),
      ls.foldl (process_step cfg) (rows, r) =
        (rows ++ runRows cfg ls r, runFinal cfg ls r) := by
  induction ls with
  | nil => intro rows r; simp [runRows, runFinal]
  | cons l ls ih =>
    intro rows r
    simp only [List.foldl_cons, runRows, runFinal, process_step]
    by_cases h : is_record_complete cfg.required_fields
        (extract_data_from_line cfg.specs l r) = true
    · simp [h, ih]
    · simp [h, ih]

theorem process_pdf_true_eq (cfg : Config) (lines : List String) :
    process_pdf true cfg lines =
      Except.ok (cfg.field_names ::
        (runRows cfg lines (emptyRecord cfg.field_names) ++
          (if runFinal cfg lines (emptyRecord cfg.field_names) =
              emptyRecord cfg.field_names then []
           else [serializeRecord (runFinal cfg lines (emptyRecord cfg.field_names))]))) := by
  simp only [process_pdf, if_true]
  rw [foldl_process_step]
  by_cases h : runFinal cfg lines (emptyRecord cfg.field_names) =
      emptyRecord cfg.field_names
  · simp [h]
  · simp [h]

/-- C2 amended: at end of input, if the accumulated record differs from the
empty record, `process_pdf` emits it raw — serialized exactly as
accumulated, without applying the normalizer; normalization is applied only
to the records completed mid-run (the rows of `runRows`). -/
theorem c2_final_flush_unnormalized (cfg : Config) (lines : List String)
    (h : runFinal cfg lines (emptyRecord cfg.field_names) ≠ emptyRecord cfg.field_names) :
    process_pdf true cfg lines =
      Except.ok (cfg.field_names ::
        (runRows cfg lines (emptyRecord cfg.field_names) ++
          [serializeRecord (runFinal cfg lines (emptyRecord cfg.field_names))])) := by
  rw [process_pdf_true_eq]
  simp [h]

/-- C2 amended witness: the single line `A: x  y` under `cfg2` leaves a
non-empty record, and the run ends with its raw serialization. -/
theorem c2_final_flush_unnormalized_witness :
    runFinal cfg2 ["A: x  y"] (emptyRecord cfg2.field_names) ≠
      emptyRecord cfg2.field_names ∧
    process_pdf true cfg2 ["A: x  y"] =
      Except.ok (cfg2.field_names ::
        (runRows cfg2 ["A: x  y"] (emptyRecord cfg2.field_names) ++
          [serializeRecord (runFinal cfg2 ["A: x  y"] (emptyRecord cfg2.field_names))])) :=
  ⟨by decide, c2_final_flush_unnormalized cfg2 ["A: x  y"] (by decide)⟩

theorem derive_field_names_eq_flatMap (specs : List (String × Nat)) :
    derive_field_names specs =
      specs.flatMap (fun p => fieldContributionSpec p.1 p.2) := by
  have aux : ∀ (l : List (String × Nat)) (acc : List String),
      l.foldl (fun acc p =>
          if p.2 = 1 then acc ++ [p.1] else acc ++ suffixedNames p.1 p.2) acc =
        acc ++ l.flatMap (fun p => fieldContributionSpec p.1 p.2) := by
    intro l
    induction l with
    | nil => intro acc; simp
    | cons p l ih =>
      intro acc
      simp only [List.foldl_cons, List.flatMap_cons]
      rw [ih]
      by_cases h : p.2 = 1
      · simp [h, fieldContributionSpec]
      · simp [h, fieldContributionSpec, suffixedNames]
  simpa [derive_field_names] using aux specs []

/-- C6: a pattern with exactly one capture group contributes one field named
exactly the pattern name, a pattern with more groups contributes the
suffixed fields `name_1 .. name_g` in group order, the derived list
preserves pattern insertion order (it is the order-preserving concatenation
of the per-pattern contributions), and the emitted header row is exactly the
derived field-name list. -/
theorem c6_field_schema_derivation (specs : List RegexSpec)
    (h : ∀ s ∈ specs, 1 ≤ s.groups) :
    derive_field_names (specs.map (fun s => (s.name, s.groups))) =
      (specs.map (fun s => (s.name, s.groups))).flatMap
        (fun p => fieldContributionSpec p.1 p.2) ∧
    ∀ (req : List String) (lines : List String), ∃ rest,
      process_pdf true
          ⟨derive_field_names (specs.map (fun s => (s.name, s.groups))), specs, req⟩
          lines =
        Except.ok (derive_field_names (specs.map (fun s => (s.name, s.groups))) :: rest) := by
  constructor
  · exact derive_field_names_eq_flatMap _
  · intro req lines
    exact ⟨_, process_pdf_true_eq _ lines⟩

/-- C6 witness: the two single-group example patterns derive the field list
`[name, id]`, equal to the concatenated contributions, and every run's
header row is that list. -/
theorem c6_field_schema_derivation_witness :
    (∀ s ∈ [nameSpec, idSpec], 1 ≤ s.groups) ∧
    (derive_field_names ([nameSpec, idSpec].map (fun s => (s.name, s.groups))) =
      ([nameSpec, idSpec].map (fun s => (s.name, s.groups))).flatMap
        (fun p => fieldContributionSpec p.1 p.2) ∧
    ∀ (req : List String) (lines : List String), ∃ rest,
      process_pdf true
          ⟨derive_field_names ([nameSpec, idSpec].map (fun s => (s.name, s.groups))),
            [nameSpec, idSpec], req⟩ lines =
        Except.ok (derive_field_names
          ([nameSpec, idSpec].map (fun s => (s.name, s.groups))) :: rest)) :=
  ⟨by decide, c6_field_schema_derivation [nameSpec, idSpec] (by decide)⟩


theorem getField_setField_ne (r : Record) {f g : String} (v : Option String)
    (h : f ≠ g) : getField (setField r g v) f = getField r f := by
  induction r with
  | nil => rfl
  | cons p r ih =>
    show getField ((if p.1 = g then (p.1, v) else p) :: setField r g v) f =
      getField (p :: r) f
    by_cases hpg : p.1 = g
    · have hpf : ¬ p.1 = f := fun hh => h (hh ▸ hpg)
      rw [if_pos hpg]
      show (if p.1 = f then v else getField (setField r g v) f) =
        (if p.1 = f then p.2 else getField r f)
      simp only [if_neg hpf]
      exact ih
    · rw [if_neg hpg]
      show (if p.1 = f then p.2 else getField (setField r g v) f) =
        (if p.1 = f then p.2 else getField r f)
      by_cases hpf : p.1 = f
      · simp only [if_pos hpf]
      · simp only [if_neg hpf]
        exact ih

theorem getField_setField_self (r : Record) {f : String} (v : Option String) :
    f ∈ r.map Prod.fst → getField (setField r f v) f = v := by
  induction r with
  | nil => intro hmem; cases hmem
  | cons p r ih =>
    intro hmem
    show getField ((if p.1 = f then (p.1, v) else p) :: setField r f v) f = v
    by_cases hpf : p.1 = f
    · rw [if_pos hpf]
      show (if p.1 = f then v else getField (setField r f v) f) = v
      rw [if_pos hpf]
    · rw [if_neg hpf]
      show (if p.1 = f then p.2 else getField (setField r f v) f) = v
      rw [if_neg hpf]
      apply ih
      rcases List.mem_map.mp hmem with ⟨q, hq, hqf⟩
      rcases List.mem_cons.mp hq with rfl | hq2
      · exact absurd hqf hpf
      · exact List.mem_map.mpr ⟨q, hq2, hqf⟩

theorem setField_keys (r : Record) (f : String) (v : Option String) :
    (setField r f v).map Prod.fst = r.map Prod.fst := by
  induction r with
  | nil => rfl
  | cons p r ih =>
    show Prod.fst (if p.1 = f then (p.1, v) else p) :: (setField r f v).map Prod.fst =
      p.1 :: r.map Prod.fst
    by_cases hpf : p.1 = f
    · rw [if_pos hpf, ih]
    · rw [if_neg hpf, ih]

theorem setFields_keys (kvs : List (String × Option String)) :
    ∀ (r : Record), (setFields r kvs).map Prod.fst = r.map Prod.fst := by
  induction kvs with
  | nil => intro r; rfl
  | cons kv kvs ih =>
    intro r
    show (setFields (setField r kv.1 kv.2) kvs).map Prod.fst = r.map Prod.fst
    rw [ih, setField_keys]

theorem getField_setFields_not_mem (kvs : List (String × Option String)) :
    ∀ (r : Record) {f : String}, (∀ kv ∈ kvs, kv.1 ≠ f) →
      getField (setFields r kvs) f = getField r f := by
  induction kvs with
  | nil => intro r f _; rfl
  | cons kv kvs ih =>
    intro r f h
    show getField (setFields (setField r kv.1 kv.2) kvs) f = getField r f
    rw [ih _ (fun kv2 h2 => h kv2 (List.mem_cons_of_mem _ h2))]
    exact getField_setField_ne r kv.2
      (fun hh => h kv (List.mem_cons_self _ _) hh.symm)

theorem getField_setFields_mem (kvs : List (String × Option String)) :
    ∀ (r : Record) {f : String} {v : Option String},
      (kvs.map Prod.fst).Nodup → (f, v) ∈ kvs → f ∈ r.map Prod.fst →
      getField (setFields r kvs) f = v := by
  induction kvs with
  | nil => intro r f v _ hkv _; cases hkv
  | cons kv kvs ih =>
    intro r f v hnd hkv hmem
    simp only [List.map_cons, List.nodup_cons] at hnd
    show getField (setFields (setField r kv.1 kv.2) kvs) f = v
    rcases List.mem_cons.mp hkv with heq | hmem2
    · have hf : kv.1 = f := by rw [← heq]
      have hnotin : ∀ kv2 ∈ kvs, kv2.1 ≠ f := by
        intro kv2 hkv2 hc
        exact hnd.1 (List.mem_map.mpr ⟨kv2, hkv2, hc.trans hf.symm⟩)
      rw [getField_setFields_not_mem kvs _ hnotin]
      have hrw : setField r kv.1 kv.2 = setField r f v := by rw [← heq]
      rw [hrw]
      exact getField_setField_self r v hmem
    · exact ih _ hnd.2 hmem2 (by rw [setField_keys]; exact hmem)

theorem applyOne_keys (line : String) (r : Record) (s : RegexSpec) :
    (applyOne line r s).map Prod.fst = r.map Prod.fst := by
  unfold applyOne
  cases s.search line with
  | none => rfl
  | some gs => exact setFields_keys _ r

theorem extract_keys (specs : List RegexSpec) (line : String) :
    ∀ (r : Record),
      (extract_data_from_line specs line r).map Prod.fst = r.map Prod.fst := by
  induction specs with
  | nil => intro r; rfl
  | cons s specs ih =>
    intro r
    show (extract_data_from_line specs line (applyOne line r s)).map Prod.fst =
      r.map Prod.fst
    rw [ih, applyOne_keys]

theorem getField_extract_not_written (specs : List RegexSpec) (line : String) :
    ∀ (r : Record) {f : String},
      (∀ s ∈ specs, ∀ gs, s.search line = some gs →
        ∀ kv ∈ assignments s.name gs, kv.1 ≠ f) →
      getField (extract_data_from_line specs line r) f = getField r f := by
  induction specs with
  | nil => intro r f _; rfl
  | cons s specs ih =>
    intro r f h
    show getField (extract_data_from_line specs line (applyOne line r s)) f =
      getField r f
    rw [ih _ (fun t ht => h t (List.mem_cons_of_mem _ ht))]
    unfold applyOne
    cases hs : s.search line with
    | none => rfl
    | some gs =>
      exact getField_setFields_not_mem _ r (h s (List.mem_cons_self _ _) gs hs)

/-- C8: field persistence — if no pattern matching any of the given lines
writes the field `f`, then `f` keeps its value unchanged through every
`extract_data_from_line` call over those lines; in particular a field set
earlier and never matched again survives until the record is reset. -/
theorem c8_field_persistence (specs : List RegexSpec) (f : String)
    (lines : List String) (r : Record)
    (h : ∀ l ∈ lines, ∀ s ∈ specs, ∀ gs, s.search l = some gs →
      ∀ kv ∈ assignments s.name gs, kv.1 ≠ f) :
    getField (lines.foldl (fun acc l => extract_data_from_line specs l acc) r) f =
      getField r f := by
  induction lines generalizing r with
  | nil => rfl
  | cons l ls ih =>
    simp only [List.foldl_cons]
    rw [ih _ (fun l2 hl2 => h l2 (List.mem_cons_of_mem _ hl2))]
    exact getField_extract_not_written specs l r (h l (List.mem_cons_self _ _))

/-- C8 witness: under the pattern that only matches the line `hit`, the
field `a` set to `kept` survives the two non-matching lines unchanged. -/
theorem c8_field_persistence_witness :
    (∀ l ∈ (["miss1", "miss2"] : List String), ∀ s ∈ [persistSpec], ∀ gs,
      s.search l = some gs → ∀ kv ∈ assignments s.name gs, kv.1 ≠ "a") ∧
    getField ((["miss1", "miss2"] : List String).foldl
        (fun acc l => extract_data_from_line [persistSpec] l acc)
        [("a", some "kept")]) "a" =
      getField [("a", some "kept")] "a" := by
  have h : ∀ l ∈ (["miss1", "miss2"] : List String), ∀ s ∈ [persistSpec], ∀ gs,
      s.search l = some gs → ∀ kv ∈ assignments s.name gs, kv.1 ≠ "a" := by
    intro l hl s hs gs hgs
    rcases List.mem_singleton.mp hs with rfl
    rcases List.mem_cons.mp hl with rfl | hl2
    · simp [persistSpec] at hgs
    · rcases List.mem_cons.mp hl2 with rfl | hl3
      · simp [persistSpec] at hgs
      · simp at hl3
  exact ⟨h, c8_field_persistence [persistSpec] "a" ["miss1", "miss2"]
    [("a", some "kept")] h⟩

theorem setField_comm (r : Record) {f g : String} (v w : Option String)
    (h : f ≠ g) :
    setField (setField r f v) g w = setField (setField r g w) f v := by
  unfold setField
  rw [List.map_map, List.map_map]
  have hfun : ((fun p : String × Option String => if p.1 = g then (p.1, w) else p) ∘
      (fun p => if p.1 = f then (p.1, v) else p)) =
      ((fun p : String × Option String => if p.1 = f then (p.1, v) else p) ∘
      (fun p => if p.1 = g then (p.1, w) else p)) := by
    funext p
    by_cases hpf : p.1 = f <;> by_cases hpg : p.1 = g
    · exact absurd (hpf.symm.trans hpg) h
    all_goals simp [Function.comp, hpf, hpg, h, Ne.symm h]
  rw [hfun]

theorem setField_setFields_comm (kvs : List (String × Option String)) :
    ∀ (r : Record) {f : String} (v : Option String),
      (∀ kv ∈ kvs, kv.1 ≠ f) →
      setFields (setField r f v) kvs = setField (setFields r kvs) f v := by
  induction kvs with
  | nil => intro r f v _; rfl
  | cons kv kvs ih =>
    intro r f v h
    show setFields (setField (setField r f v) kv.1 kv.2) kvs =
      setField (setFields (setField r kv.1 kv.2) kvs) f v
    rw [setField_comm r v kv.2 (fun hh => h kv (List.mem_cons_self _ _) hh.symm)]
    exact ih _ _ (fun kv2 h2 => h kv2 (List.mem_cons_of_mem _ h2))

theorem setFields_comm (kvs1 kvs2 : List (String × Option String)) :
    ∀ (r : Record), (∀ kv1 ∈ kvs1, ∀ kv2 ∈ kvs2, kv1.1 ≠ kv2.1) →
      setFields (setFields r kvs1) kvs2 = setFields (setFields r kvs2) kvs1 := by
  induction kvs1 with
  | nil => intro r _; rfl
  | cons kv kvs1 ih =>
    intro r hdisj
    show setFields (setFields (setField r kv.1 kv.2) kvs1) kvs2 =
      setFields (setFields r kvs2) (kv :: kvs1)
    rw [ih _ (fun kv1 h1 kv2 h2 => hdisj kv1 (List.mem_cons_of_mem _ h1) kv2 h2)]
    show setFields (setFields (setField r kv.1 kv.2) kvs2) kvs1 =
      setFields (setField (setFields r kvs2) kv.1 kv.2) kvs1
    rw [setField_setFields_comm kvs2 r kv.2
      (fun kv2 h2 => Ne.symm (hdisj kv (List.mem_cons_self _ _) kv2 h2))]

theorem assignments_keys (name : String) (gs : List (Option String)) :
    (assignments name gs).map Prod.fst = fieldContributionSpec name gs.length := by
  by_cases h : gs.length = 1
  · simp [assignments, fieldContributionSpec, h]
  · simp only [assignments, fieldContributionSpec, if_neg h]
    rw [List.map_fst_zip]
    · rfl
    · simp [suffixedNames]

theorem applyOne_comm (line : String) (r : Record) (s t : RegexSpec)
    (hdisj : List.Disjoint (fieldContributionSpec s.name s.groups)
      (fieldContributionSpec t.name t.groups))
    (hws : ∀ gs, s.search line = some gs → gs.length = s.groups)
    (hwt : ∀ gs, t.search line = some gs → gs.length = t.groups) :
    applyOne line (applyOne line r s) t = applyOne line (applyOne line r t) s := by
  unfold applyOne
  cases hs : s.search line with
  | none => cases ht : t.search line <;> rfl
  | some gs =>
    cases ht : t.search line with
    | none => rfl
    | some gs2 =>
      have e1 : (assignments s.name gs).map Prod.fst =
          fieldContributionSpec s.name s.groups := by
        rw [assignments_keys, hws gs hs]
      have e2 : (assignments t.name gs2).map Prod.fst =
          fieldContributionSpec t.name t.groups := by
        rw [assignments_keys, hwt gs2 ht]
      apply setFields_comm
      intro kv1 h1 kv2 h2 he
      have k1 : kv1.1 ∈ fieldContributionSpec s.name s.groups :=
        e1 ▸ List.mem_map.mpr ⟨kv1, h1, rfl⟩
      have k2 : kv2.1 ∈ fieldContributionSpec t.name t.groups :=
        e2 ▸ List.mem_map.mpr ⟨kv2, h2, rfl⟩
      exact hdisj k1 (he ▸ k2)

/-- C7: with well-formed patterns (a match always yields exactly the
compiled number of groups) and the construction-enforced duplicate-free
field schema, (1) the record produced by `extract_data_from_line` is the
same for every permutation of the pattern list — distinct patterns write
disjoint fields — and (2) each matching pattern writes exactly its own
assignments into the record, overwriting any previous value of those fields
regardless of the record's prior contents. -/
theorem c7_order_independence (specs : List RegexSpec) (line : String) (r : Record)
    (hwf : ∀ s ∈ specs, ∀ l gs, s.search l = some gs → gs.length = s.groups)
    (hnd : (derive_field_names (specs.map (fun s => (s.name, s.groups)))).Nodup) :
    (∀ specs' : List RegexSpec, specs'.Perm specs →
      extract_data_from_line specs' line r = extract_data_from_line specs line r) ∧
    (r.map Prod.fst = derive_field_names (specs.map (fun s => (s.name, s.groups))) →
      ∀ s ∈ specs, ∀ gs, s.search line = some gs →
        ∀ kv ∈ assignments s.name gs,
          getField (extract_data_from_line specs line r) kv.1 = kv.2) := by
  have hflat : ((specs.map (fun s => (s.name, s.groups))).flatMap
      (fun p => fieldContributionSpec p.1 p.2)).Nodup := by
    rw [← derive_field_names_eq_flatMap]
    exact hnd
  have hsplit := List.nodup_flatMap.mp hflat
  have heach : ∀ s2 ∈ specs, (fieldContributionSpec s2.name s2.groups).Nodup := by
    intro s2 hs2
    exact hsplit.1 _ (List.mem_map.mpr ⟨s2, hs2, rfl⟩)
  have hpw : List.Pairwise (fun s2 t2 => List.Disjoint
      (fieldContributionSpec s2.name s2.groups)
      (fieldContributionSpec t2.name t2.groups)) specs := by
    have h2 := hsplit.2
    rw [List.pairwise_map] at h2
    exact h2
  constructor
  · intro specs' hperm
    have comm : ∀ x ∈ specs', ∀ y ∈ specs', ∀ (z : Record),
        applyOne line (applyOne line z x) y = applyOne line (applyOne line z y) x := by
      intro x hx y hy z
      by_cases hxy : x = y
      · rw [hxy]
      · have hd : List.Disjoint (fieldContributionSpec x.name x.groups)
            (fieldContributionSpec y.name y.groups) :=
          hpw.forall (fun _ _ hab => hab.symm)
            (hperm.mem_iff.mp hx) (hperm.mem_iff.mp hy) hxy
        exact applyOne_comm line z x y hd
          (hwf x (hperm.mem_iff.mp hx) line) (hwf y (hperm.mem_iff.mp hy) line)
    exact hperm.foldl_eq' comm r
  · intro hkeys s hs gs hsearch kv hkv
    obtain ⟨pre, post, hspl⟩ := List.append_of_mem hs
    subst hspl
    have hdecomp : extract_data_from_line (pre ++ s :: post) line r =
        extract_data_from_line post line
          (applyOne line (extract_data_from_line pre line r) s) := by
      unfold extract_data_from_line
      rw [List.foldl_append, List.foldl_cons]
    rw [hdecomp]
    have hskeys : (assignments s.name gs).map Prod.fst =
        fieldContributionSpec s.name s.groups := by
      rw [assignments_keys,
        hwf s (List.mem_append_cons_self) line gs hsearch]
    have hkv1 : kv.1 ∈ fieldContributionSpec s.name s.groups :=
      hskeys ▸ List.mem_map.mpr ⟨kv, hkv, rfl⟩
    have hpost : ∀ t ∈ post, ∀ gs2, t.search line = some gs2 →
        ∀ kv2 ∈ assignments t.name gs2, kv2.1 ≠ kv.1 := by
      intro t ht gs2 hgs2 kv2 hkv2 he
      have hst : List.Disjoint (fieldContributionSpec s.name s.groups)
          (fieldContributionSpec t.name t.groups) := by
        have h3 := (List.pairwise_append.mp hpw).2.1
        exact (List.pairwise_cons.mp h3).1 t ht
      have htkeys : (assignments t.name gs2).map Prod.fst =
          fieldContributionSpec t.name t.groups := by
        rw [assignments_keys, hwf t (by
          exact List.mem_append_of_mem_right _ (List.mem_cons_of_mem _ ht)) line gs2 hgs2]
      have k2 : kv2.1 ∈ fieldContributionSpec t.name t.groups :=
        htkeys ▸ List.mem_map.mpr ⟨kv2, hkv2, rfl⟩
      exact hst hkv1 (he ▸ k2)
    rw [getField_extract_not_written post line _ hpost]
    have happ : applyOne line (extract_data_from_line pre line r) s =
        setFields (extract_data_from_line pre line r) (assignments s.name gs) := by
      unfold applyOne
      rw [hsearch]
    rw [happ]
    apply getField_setFields_mem
    · rw [hskeys]
      exact heach s List.mem_append_cons_self
    · exact hkv
    · rw [extract_keys, hkeys, derive_field_names_eq_flatMap]
      exact List.mem_flatMap.mpr
        ⟨(s.name, s.groups),
          List.mem_map.mpr ⟨s, List.mem_append_cons_self, rfl⟩, hkv1⟩

/-- C7 witness: the two always-matching single-group patterns yield the same
record in either order, and the pattern `wa` overwrites its field with the
captured value `x`. -/
theorem c7_order_independence_witness :
    extract_data_from_line [wB, wA] "z" (emptyRecord ["wa", "wb"]) =
      extract_data_from_line [wA, wB] "z" (emptyRecord ["wa", "wb"]) ∧
    getField (extract_data_from_line [wA, wB] "z" (emptyRecord ["wa", "wb"])) "wa" =
      some "x" := by
  have hwf : ∀ s ∈ [wA, wB], ∀ l gs, s.search l = some gs → gs.length = s.groups := by
    intro s hs l gs hgs
    rcases List.mem_cons.mp hs with rfl | hs2
    · have h2 : some [some "x"] = some gs := hgs
      injection h2 with h3
      rw [← h3]
      rfl
    · rcases List.mem_cons.mp hs2 with rfl | hs3
      · have h2 : some [some "y"] = some gs := hgs
        injection h2 with h3
        rw [← h3]
        rfl
      · cases hs3
  have hmain := c7_order_independence [wA, wB] "z" (emptyRecord ["wa", "wb"])
    hwf (by decide)
  refine ⟨hmain.1 [wB, wA] (List.Perm.swap wA wB []), ?_⟩
  have h4 := hmain.2 (by decide) wA (List.mem_cons_self _ _) [some "x"] rfl
    ("wa", some "x") (by decide)
  exact h4

theorem collapseWS_space_mem (b : Bool) (l : List Char) :
    ∀ c ∈ collapseWS b l, isPySpace c = true → c = ' ' := by
  induction l generalizing b with
  | nil => intro c hc; cases hc
  | cons d cs ih =>
    intro c hc hsp
    by_cases hd : isPySpace d = true
    · cases b with
      | true =>
        have e : collapseWS true (d :: cs) = collapseWS true cs := by
          simp [collapseWS, hd]
        rw [e] at hc
        exact ih true c hc hsp
      | false =>
        have e : collapseWS false (d :: cs) = ' ' :: collapseWS true cs := by
          simp [collapseWS, hd]
        rw [e] at hc
        rcases List.mem_cons.mp hc with rfl | hc2
        · rfl
        · exact ih true c hc2 hsp
    · have e : collapseWS b (d :: cs) = d :: collapseWS false cs := by
        cases b <;> simp [collapseWS, hd]
      rw [e] at hc
      rcases List.mem_cons.mp hc with rfl | hc2
      · exact absurd hsp hd
      · exact ih false c hc2 hsp

theorem collapseWS_props (l : List Char) :
    (∀ c cs2, collapseWS true l = c :: cs2 → isPySpace c = false) ∧
    List.Chain' noAdjWS (collapseWS true l) ∧
    List.Chain' noAdjWS (collapseWS false l) := by
  induction l with
  | nil =>
    refine ⟨?_, ?_, ?_⟩
    · intro c cs2 h; cases h
    · exact List.chain'_nil
    · exact List.chain'_nil
  | cons d cs ih =>
    obtain ⟨ih1, ih2, ih3⟩ := ih
    by_cases hd : isPySpace d = true
    · have e1 : collapseWS true (d :: cs) = collapseWS true cs := by
        simp [collapseWS, hd]
      have e2 : collapseWS false (d :: cs) = ' ' :: collapseWS true cs := by
        simp [collapseWS, hd]
      refine ⟨?_, ?_, ?_⟩
      · intro c cs2 h
        rw [e1] at h
        exact ih1 c cs2 h
      · rw [e1]; exact ih2
      · rw [e2]
        refine List.chain'_cons'.mpr ⟨?_, ih2⟩
        intro y hy
        have hyf : isPySpace y = false := by
          cases hh : collapseWS true cs with
          | nil => rw [hh] at hy; cases hy
          | cons z zs =>
            rw [hh] at hy
            have hyz : z = y := by simpa using hy
            rw [← hyz]
            exact ih1 z zs hh
        intro hcon
        rw [hyf] at hcon
        exact Bool.false_ne_true hcon.2
    · have e : ∀ b, collapseWS b (d :: cs) = d :: collapseWS false cs := by
        intro b; cases b <;> simp [collapseWS, hd]
      have hdf : isPySpace d = false := by simpa using hd
      refine ⟨?_, ?_, ?_⟩
      · intro c cs2 h
        rw [e true] at h
        injection h with h1 _
        rw [← h1]; exact hdf
      · rw [e true]
        refine List.chain'_cons'.mpr ⟨?_, ih3⟩
        intro y _ hcon
        rw [hdf] at hcon
        exact Bool.false_ne_true hcon.1
      · rw [e false]
        refine List.chain'_cons'.mpr ⟨?_, ih3⟩
        intro y _ hcon
        rw [hdf] at hcon
        exact Bool.false_ne_true hcon.1

theorem collapseWS_id (l : List Char) :
    (∀ c ∈ l, isPySpace c = true → c = ' ') → List.Chain' noAdjWS l →
    collapseWS false l = l ∧
    ((∀ c cs2, l = c :: cs2 → isPySpace c = false) → collapseWS true l = l) := by
  induction l with
  | nil => intro _ _; exact ⟨rfl, fun _ => rfl⟩
  | cons d cs ih =>
    intro hsp hch
    have hsp' : ∀ c ∈ cs, isPySpace c = true → c = ' ' :=
      fun c hc => hsp c (List.mem_cons_of_mem _ hc)
    have hch' : List.Chain' noAdjWS cs := hch.tail
    obtain ⟨ihf, iht⟩ := ih hsp' hch'
    by_cases hd : isPySpace d = true
    · have hd' : d = ' ' := hsp d (List.mem_cons_self _ _) hd
      have e2 : collapseWS false (d :: cs) = ' ' :: collapseWS true cs := by
        simp [collapseWS, hd]
      have hhead : ∀ c cs2, cs = c :: cs2 → isPySpace c = false := by
        intro c cs2 hcs
        subst hcs
        have hrel : noAdjWS d c := (List.chain'_cons.mp hch).1
        cases hsc : isPySpace c with
        | false => rfl
        | true => exact absurd ⟨hd, hsc⟩ hrel
      constructor
      · rw [e2, iht hhead, hd']
      · intro hh
        exact absurd (hh d cs rfl) (by simp [hd])
    · have e : ∀ b, collapseWS b (d :: cs) = d :: collapseWS false cs := by
        intro b; cases b <;> simp [collapseWS, hd]
      constructor
      · rw [e false, ihf]
      · intro _
        rw [e true, ihf]

theorem dropWhile_head_false (p : Char → Bool) :
    ∀ (l : List Char) (c : Char) (cs2 : List Char),
      l.dropWhile p = c :: cs2 → p c = false := by
  intro l
  induction l with
  | nil => intro c cs2 h; cases h
  | cons d l ih =>
    intro c cs2 h
    rw [List.dropWhile_cons] at h
    by_cases hd : p d = true
    · rw [if_pos hd] at h
      exact ih c cs2 h
    · rw [if_neg hd] at h
      injection h with h1 _
      rw [← h1]
      simpa using hd

theorem dropWhile_eq_self_of_head (p : Char → Bool) (l : List Char)
    (h : ∀ c cs2, l = c :: cs2 → p c = false) : l.dropWhile p = l := by
  cases l with
  | nil => rfl
  | cons c cs2 =>
    rw [List.dropWhile_cons, h c cs2 rfl]
    simp

theorem pyStrip_eq_rdrop (l : List Char) :
    pyStrip l = List.rdropWhile isPySpace (l.dropWhile isPySpace) := rfl

theorem pyStrip_subset (l : List Char) : ∀ c ∈ pyStrip l, c ∈ l := by
  intro c hc
  rw [pyStrip_eq_rdrop] at hc
  have hpre := List.rdropWhile_prefix isPySpace (l.dropWhile isPySpace)
  have hsuf : List.IsSuffix (l.dropWhile isPySpace) l := List.dropWhile_suffix isPySpace
  have h1 : c ∈ l.dropWhile isPySpace := List.IsPrefix.subset hpre hc
  exact List.IsSuffix.subset hsuf h1

theorem pyStrip_head_not (l : List Char) :
    ∀ c cs2, pyStrip l = c :: cs2 → isPySpace c = false := by
  intro c cs2 h
  rw [pyStrip_eq_rdrop] at h
  have hpre := List.rdropWhile_prefix isPySpace (l.dropWhile isPySpace)
  obtain ⟨t, ht⟩ := hpre
  rw [h, List.cons_append] at ht
  exact dropWhile_head_false isPySpace l c (cs2 ++ t) ht.symm

theorem pyStrip_last_not (l : List Char) (hne : pyStrip l ≠ []) :
    isPySpace ((pyStrip l).getLast hne) = false := by
  have h := List.rdropWhile_last_not isPySpace (l.dropWhile isPySpace) hne
  simpa using h

theorem pyStrip_chain (l : List Char) (h : List.Chain' noAdjWS l) :
    List.Chain' noAdjWS (pyStrip l) := by
  have h1 : List.Chain' noAdjWS (l.dropWhile isPySpace) :=
    List.Chain'.suffix h (List.dropWhile_suffix isPySpace)
  have hpre := List.rdropWhile_prefix isPySpace (l.dropWhile isPySpace)
  exact List.Chain'.prefix h1 hpre

theorem normalizeWS_idem (s : String) :
    normalizeWS (normalizeWS s) = normalizeWS s := by
  show String.mk (pyStrip (collapseWS false (pyStrip (collapseWS false s.data)))) =
    String.mk (pyStrip (collapseWS false s.data))
  have hchain_m : List.Chain' noAdjWS (collapseWS false s.data) :=
    (collapseWS_props s.data).2.2
  have hspace_x : ∀ c ∈ pyStrip (collapseWS false s.data),
      isPySpace c = true → c = ' ' := by
    intro c hc
    exact collapseWS_space_mem false s.data c (pyStrip_subset _ c hc)
  have hchain_x : List.Chain' noAdjWS (pyStrip (collapseWS false s.data)) :=
    pyStrip_chain _ hchain_m
  obtain ⟨hcf, _⟩ := collapseWS_id (pyStrip (collapseWS false s.data)) hspace_x hchain_x
  rw [hcf]
  rw [pyStrip_eq_rdrop, dropWhile_eq_self_of_head isPySpace _
    (pyStrip_head_not (collapseWS false s.data))]
  have hlast : ∀ hl : pyStrip (collapseWS false s.data) ≠ [],
      ¬ isPySpace ((pyStrip (collapseWS false s.data)).getLast hl) = true := by
    intro hl
    have h2 := pyStrip_last_not (collapseWS false s.data) hl
    rw [h2]
    simp
  exact congrArg String.mk (List.rdropWhile_eq_self_iff.mpr hlast)

theorem collapseWS_mem_of_not_space (c : Char) (hc : isPySpace c = false) :
    ∀ (b : Bool) (l : List Char), c ∈ l → c ∈ collapseWS b l := by
  intro b l
  induction l generalizing b with
  | nil => intro h; cases h
  | cons d cs ih =>
    intro h
    by_cases hd : isPySpace d = true
    · have hdc : c ≠ d := fun he => by rw [he, hd] at hc; cases hc
      have hcs : c ∈ cs := by
        rcases List.mem_cons.mp h with rfl | h2
        · exact absurd rfl hdc
        · exact h2
      cases b with
      | true =>
        have e : collapseWS true (d :: cs) = collapseWS true cs := by
          simp [collapseWS, hd]
        rw [e]
        exact ih true hcs
      | false =>
        have e : collapseWS false (d :: cs) = ' ' :: collapseWS true cs := by
          simp [collapseWS, hd]
        rw [e]
        exact List.mem_cons_of_mem _ (ih true hcs)
    · have e : collapseWS b (d :: cs) = d :: collapseWS false cs := by
        cases b <;> simp [collapseWS, hd]
      rw [e]
      rcases List.mem_cons.mp h with rfl | h2
      · exact List.mem_cons_self _ _
      · exact List.mem_cons_of_mem _ (ih false h2)

theorem dropWhile_mem_of_not_space (p : Char → Bool) (c : Char) (hc : p c = false)
    (l : List Char) (h : c ∈ l) : c ∈ l.dropWhile p := by
  have hsplit : l.takeWhile p ++ l.dropWhile p = l := List.takeWhile_append_dropWhile p l
  rw [← hsplit] at h
  rcases List.mem_append.mp h with h1 | h2
  · have := List.mem_takeWhile_imp h1
    rw [hc] at this
    cases this
  · exact h2

theorem pyStrip_mem_of_not_space (c : Char) (hc : isPySpace c = false)
    (l : List Char) (h : c ∈ l) : c ∈ pyStrip l := by
  rw [pyStrip_eq_rdrop]
  have h1 : c ∈ l.dropWhile isPySpace := dropWhile_mem_of_not_space _ c hc l h
  show c ∈ List.reverse ((l.dropWhile isPySpace).reverse.dropWhile isPySpace)
  rw [List.mem_reverse]
  exact dropWhile_mem_of_not_space _ c hc _ (List.mem_reverse.mpr h1)

theorem normalizeWS_ne_empty (s : String) (c : Char) (hc : c ∈ s.data)
    (hcs : isPySpace c = false) : normalizeWS s ≠ "" := by
  intro he
  have h1 : c ∈ pyStrip (collapseWS false s.data) :=
    pyStrip_mem_of_not_space c hcs _ (collapseWS_mem_of_not_space c hcs false _ hc)
  have h2 : pyStrip (collapseWS false s.data) = [] := by
    have := congrArg String.data he
    exact this
  rw [h2] at h1
  cases h1

/-- C4 amended: normalization is idempotent on every record none of whose
fields holds a nonempty all-whitespace string; such a field normalizes to
the empty string once and to null the second time, which is the only source
of non-idempotence. -/
theorem c4_normalize_idempotent_on_non_blank (r : Record)
    (h : ∀ p ∈ r, ∀ s : String, p.2 = some s →
      s = "" ∨ ∃ c ∈ s.data, isPySpace c = false) :
    parse_record (parse_record r) = parse_record r := by
  unfold parse_record
  rw [List.map_map]
  apply List.map_congr_left
  intro p hp
  show (p.1, normField (normField p.2)) = (p.1, normField p.2)
  cases hv : p.2 with
  | none => rfl
  | some s =>
    by_cases hs : s = ""
    · rw [hs]
      rfl
    · rcases h p hp s hv with he | ⟨c, hcmem, hcns⟩
      · exact absurd he hs
      · show (p.1, normField (if s = "" then none else some (normalizeWS s))) = _
        rw [if_neg hs]
        have hne : normalizeWS s ≠ "" := normalizeWS_ne_empty s c hcmem hcns
        show (p.1, if normalizeWS s = "" then none else some (normalizeWS (normalizeWS s))) = _
        rw [if_neg hne, normalizeWS_idem]
        simp [normField, hs]

/-- C4 amended witness: a record with a multi-space field, a null field and
an empty-string field satisfies the guard and normalization is idempotent on
it. -/
theorem c4_normalize_idempotent_on_non_blank_witness :
    (∀ p ∈ ([("a", some "  hi   there "), ("b", none), ("c", some "")] : Record),
      ∀ s : String, p.2 = some s → s = "" ∨ ∃ c ∈ s.data, isPySpace c = false) ∧
    parse_record (parse_record
        [("a", some "  hi   there "), ("b", none), ("c", some "")]) =
      parse_record [("a", some "  hi   there "), ("b", none), ("c", some "")] := by
  have h : ∀ p ∈ ([("a", some "  hi   there "), ("b", none), ("c", some "")] : Record),
      ∀ s : String, p.2 = some s → s = "" ∨ ∃ c ∈ s.data, isPySpace c = false := by
    intro p hp s hs
    rcases List.mem_cons.mp hp with rfl | hp2
    · injection hs with hs2
      rw [← hs2]
      right
      decide
    · rcases List.mem_cons.mp hp2 with rfl | hp3
      · cases hs
      · rcases List.mem_cons.mp hp3 with rfl | hp4
        · injection hs with hs2
          rw [← hs2]
          left
          rfl
        · cases hp4
  exact ⟨h, c4_normalize_idempotent_on_non_blank _ h⟩
